import Mathlib

/-!
Shallow embedding of the `query-ast` library (`src/lib/index.js`) with the
default adapter options.  A raw AST node in the default format is
`{ type, value }` where `value` is either a string (leaf) or an array of
child nodes; `hasChildren` tests `Array.isArray(node.value)`.
-/

namespace QueryAst

/-- A raw AST node in the default adapter format: `leaf ty s` models
`{ type: ty, value: s }` with a string value, `node ty cs` models
`{ type: ty, value: cs }` with an array value. -/
inductive RawNode where
  | leaf (ty : String) (s : String)
  | node (ty : String) (children : List RawNode)

mutual

/-- Boolean structural equality on raw nodes. -/
def rawBeq : RawNode → RawNode → Bool
  | .leaf a s, .leaf b t => a == b && s == t
  | .node a cs, .node b ds => a == b && rawBeqList cs ds
  | _, _ => false

/-- Boolean structural equality on lists of raw nodes. -/
def rawBeqList : List RawNode → List RawNode → Bool
  | [], [] => true
  | c :: cs, d :: ds => rawBeq c d && rawBeqList cs ds
  | _, _ => false

end

mutual

theorem rawBeq_iff : ∀ x y, rawBeq x y = true ↔ x = y
  | .leaf a s, .leaf b t => by simp [rawBeq]
  | .leaf _ _, .node _ _ => by simp [rawBeq]
  | .node _ _, .leaf _ _ => by simp [rawBeq]
  | .node a cs, .node b ds => by
    simp only [rawBeq, Bool.and_eq_true, beq_iff_eq, rawBeqList_iff cs ds,
      RawNode.node.injEq]

theorem rawBeqList_iff : ∀ xs ys, rawBeqList xs ys = true ↔ xs = ys
  | [], [] => by simp [rawBeqList]
  | [], _ :: _ => by simp [rawBeqList]
  | _ :: _, [] => by simp [rawBeqList]
  | c :: cs, d :: ds => by
    simp only [rawBeqList, Bool.and_eq_true, rawBeq_iff c d, rawBeqList_iff cs ds,
      List.cons.injEq]

end

instance : DecidableEq RawNode := fun a b => decidable_of_iff _ (rawBeq_iff a b)

/-- Default `options.getType`: `(node) => node.type`. -/
def getType : RawNode → String
  | .leaf ty _ => ty
  | .node ty _ => ty

/-- Default `options.hasChildren`: `(node) => Array.isArray(node.value)`. -/
def rawHasChildren : RawNode → Bool
  | .leaf _ _ => false
  | .node _ _ => true

/-- Default `options.getChildren`: `(node) => node.value` (for array values). -/
def rawGetChildren : RawNode → List RawNode
  | .leaf _ _ => []
  | .node _ cs => cs

/-- Default `options.toString`: `(node) => _.isString(node.value) ? node.value : ''`. -/
def rawToString : RawNode → String
  | .leaf _ s => s
  | .node _ _ => ""

/-- Default `options.toJSON`: `Object.assign({}, node, { value: children ? children : node.value })`. -/
def rawToJSON (n : RawNode) (children : Option (List RawNode)) : RawNode :=
  match children with
  | some cs =>
    match n with
    | .leaf ty _ => .node ty cs
    | .node ty _ => .node ty cs
  | none => n

mutual

/-- `Node.prototype.toJSON`: `toJSON(this.node, this.hasChildren ? this.children.map((n) => n.toJSON()) : null)`. -/
def nodeToJSON : RawNode → RawNode
  | .leaf ty s => rawToJSON (.leaf ty s) none
  | .node ty cs => rawToJSON (.node ty cs) (some (nodeToJSONList cs))

/-- `this.children.map((n) => n.toJSON())`. -/
def nodeToJSONList : List RawNode → List RawNode
  | [] => []
  | c :: cs => nodeToJSON c :: nodeToJSONList cs

end

/-! ## Errors

The library raises two kinds of runtime failure: `invariant(...)` violations
(from the `invariant` package; the spec's `InvalidArgumentError`) and plain
JavaScript `TypeError`s from accessing a property of `undefined`. -/

/-- Runtime failures of the embedded code. -/
inductive Err where
  | invariantError
  | typeError
deriving DecidableEq, Repr

instance {ε α : Type _} [DecidableEq ε] [DecidableEq α] : DecidableEq (Except ε α) :=
  fun a b =>
    match a, b with
    | .ok x, .ok y => decidable_of_iff (x = y) (by simp)
    | .error x, .error y => decidable_of_iff (x = y) (by simp)
    | .ok _, .error _ => isFalse (by simp)
    | .error _, .ok _ => isFalse (by simp)

/-! ## JavaScript argument values

Several methods receive arbitrary JavaScript values and branch on dynamic
checks (`_.isInteger`, truthiness).  `JSArg` models the value kinds those
checks distinguish. -/

/-- A JavaScript argument value, excluding nodes: an integer number, a
non-integral number, a string, a boolean, or `null`. -/
inductive JSArg where
  | int (i : Int)
  | fracNum
  | str (s : String)
  | bool (b : Bool)
  | null
deriving DecidableEq, Repr

/-- `_.isInteger`. -/
def JSArg.isInteger : JSArg → Bool
  | .int _ => true
  | _ => false

/-- JavaScript truthiness of a `JSArg` (`0`, `''`, `false`, `null` are falsy). -/
def JSArg.truthy : JSArg → Bool
  | .int i => i != 0
  | .fracNum => true
  | .str s => s != ""
  | .bool b => b
  | .null => false

/-! ## The unmutated overlay, read operations

The `Node` overlay built by the `Node` constructor over an unmutated tree is
isomorphic to the raw tree itself; an overlay node is identified by its path
from the root (`Node` object identity = path), its `node` field is the raw
subtree at that path, its `parent` is the path with the last step dropped and
its `children` are the one-step extensions of its path. -/

/-- A position in the overlay: the list of child indices from the root. -/
abbrev Path := List Nat

/-- The raw subtree at a path, when the path is valid. -/
def subtreeAt : RawNode → Path → Option RawNode
  | t, [] => some t
  | .leaf _ _, _ :: _ => none
  | .node _ cs, i :: p =>
    match cs[i]? with
    | some c => subtreeAt c p
    | none => none

/-- The raw subtree at a path; valid paths only are used by the theorems. -/
def rawAt (t : RawNode) (p : Path) : RawNode :=
  (subtreeAt t p).getD (.leaf "" "")

/-- `getType(n.node)` for the overlay node at a path. -/
def typeAt (t : RawNode) (p : Path) : String :=
  getType (rawAt t p)

/-- `n.parent` for the overlay node at a path: `none` for the root. -/
def parentPath : Path → Option Path
  | [] => none
  | p => some p.dropLast

/-- `n.children` of the overlay node at a path (as paths, one per child of
the raw subtree at that path). -/
def childrenPaths (t : RawNode) (p : Path) : List Path :=
  (List.range (rawGetChildren (rawAt t p)).length).map (fun i => p ++ [i])

/-- `Array.prototype.indexOf`: first index of the element, `-1` if absent. -/
def jsIndexOf {α : Type _} [DecidableEq α] (l : List α) (a : α) : Int :=
  if a ∈ l then (l.indexOf a : Int) else -1

/-- Helper for `uniqFirst`: drop elements already seen. -/
def uniqAux {α : Type _} [DecidableEq α] (seen : List α) : List α → List α
  | [] => []
  | x :: xs => if x ∈ seen then uniqAux seen xs else x :: uniqAux (seen ++ [x]) xs

/-- `_.uniq`: keep the first occurrence of each element, in order. -/
def uniqFirst {α : Type _} [DecidableEq α] (l : List α) : List α :=
  uniqAux [] l

/-! ## Selector resolution (`getSelector`) -/

/-- The argument given to a traversal method as a selector.  `fn` predicates
receive the overlay node, identified here by its path.  `num`, `nullArg` and
`absent` are representative unrecognized kinds (neither string, regexp nor
function). -/
inductive SelectorArg where
  | str (s : String)
  | regex (test : String → Bool)
  | fn (pred : Path → Bool)
  | num (i : Int)
  | nullArg
  | absent

/-- `getSelector`: resolves a selector argument to a predicate on overlay
nodes.  Strings compare `getType(n.node)` for equality, regexps test it,
functions are used directly, and every other kind matches everything. -/
def getSelector (t : RawNode) : SelectorArg → (Path → Bool)
  | .str s => fun p => typeAt t p == s
  | .regex test => fun p => test (typeAt t p)
  | .fn pred => pred
  | _ => fun _ => true

/-! ## `Node.prototype.reduce` and post-order traversal -/

mutual

/-- `Node.prototype.reduce`: post-order — reduce all children left to right,
then apply `f` to the node itself. -/
def nreduce {α : Type _} (f : α → Path → α) : RawNode → Path → α → α
  | .leaf _ _, p, acc => f acc p
  | .node _ cs, p, acc => f (lreduce f cs p 0 acc) p

/-- `this.children.reduce((a, n) => n.reduce(fn, a), acc)`, with `i` the
index of the first child in the parent's children array. -/
def lreduce {α : Type _} (f : α → Path → α) : List RawNode → Path → Nat → α → α
  | [], _, _, acc => acc
  | c :: cs, p, i, acc => lreduce f cs p (i + 1) (nreduce f c (p ++ [i]) acc)

end

mutual

/-- The post-order listing of the paths of a subtree (children first, then
the node itself). -/
def postPaths : RawNode → Path → List Path
  | .leaf _ _, p => [p]
  | .node _ cs, p => postList cs p 0 ++ [p]

/-- Post-order listing of a forest of siblings starting at child index `i`. -/
def postList : List RawNode → Path → Nat → List Path
  | [], _, _ => []
  | c :: cs, p, i => postPaths c (p ++ [i]) ++ postList cs p (i + 1)

end

/-! ## `Wrapper` read operations over the unmutated overlay

A selection (`this.nodes`) is a list of paths. -/

/-- The accumulator step used by `find`:
`(a, n) => selector(n) ? a.concat(n) : a`. -/
def collectStep (sel : Path → Bool) : List Path → Path → List Path :=
  fun a q => if sel q then a ++ [q] else a

/-- `Wrapper.prototype.find`:
`_.uniq(_.flatMap(this.nodes, (n) => n.reduce((a, n) => selector(n) ? a.concat(n) : a, [])))`. -/
def findM (t : RawNode) (sel : Path → Bool) (nodes : List Path) : List Path :=
  uniqFirst (nodes.flatMap (fun p =>
    match subtreeAt t p with
    | some s => nreduce (collectStep sel) s p []
    | none => []))

/-- Modelled from the spec's words for the claim about `find`: for each node
of the selection, exactly the descendants of that node (not including the
node itself) satisfying the selector, in post-order, concatenated in
selection order and deduplicated by identity. -/
def specFindDescendants (t : RawNode) (sel : Path → Bool) (nodes : List Path) : List Path :=
  uniqFirst (nodes.flatMap (fun p =>
    match subtreeAt t p with
    | some (.node _ cs) => (postList cs p 0).filter sel
    | _ => []))

/-- The post-order matches of each selected node's subtree, the node itself
included: what `find` actually computes. -/
def subtreePostMatches (t : RawNode) (sel : Path → Bool) (nodes : List Path) : List Path :=
  uniqFirst (nodes.flatMap (fun p =>
    match subtreeAt t p with
    | some s => (postPaths s p).filter sel
    | none => []))

/-- `Wrapper.prototype.eq`: `invariant(_.isInteger(index), 'eq() requires an
index')`, then `$(this.nodes[index] || [], this)`; an absent argument is not
an integer either. -/
def eqM (nodes : List Path) (a : Option JSArg) : Except Err (List Path) :=
  match a with
  | some (.int i) =>
    .ok (if 0 ≤ i then ((nodes[i.toNat]?).map (fun n => [n])).getD [] else [])
  | _ => .error .invariantError

/-- The JSON value returned by `get`: a single reconstructed node or an
array of reconstructed nodes. -/
inductive JVal where
  | node (n : RawNode)
  | arr (ns : List RawNode)
deriving DecidableEq

/-- `n.toJSON()` for the overlay node at a path. -/
def jsonAt (t : RawNode) (p : Path) : RawNode :=
  nodeToJSON (rawAt t p)

/-- `Wrapper.prototype.get`:
`_.isInteger(index) ? this.nodes[index].toJSON() : this.nodes.map((n) => n.toJSON())`.
An integer index that misses the selection dereferences `undefined`
(`TypeError`). -/
def getM (t : RawNode) (nodes : List Path) (index : Option JSArg) : Except Err JVal :=
  match index with
  | some (.int i) =>
    if 0 ≤ i ∧ i < (nodes.length : Int) then
      .ok (.node (jsonAt t ((nodes[i.toNat]?).getD [])))
    else .error .typeError
  | _ => .ok (.arr (nodes.map (jsonAt t)))

/-- `Wrapper.prototype.index` with no argument: the position of the first
node of the selection among its own siblings, `-1` when there is no first
node or it has no parent. -/
def wIndex (t : RawNode) (nodes : List Path) : Int :=
  match nodes with
  | [] => -1
  | n :: _ =>
    match parentPath n with
    | none => -1
    | some pp =>
      if rawHasChildren (rawAt t pp) then jsIndexOf (childrenPaths t pp) n else -1

/-- One step of `Wrapper.prototype.next` for a node `n` of the selection:
`index >= 0 && index < n.parent.children.length - 1 ? n.parent.children[index + 1] : []`,
where `index` is `this.index()` — computed from the selection's FIRST node,
not from `n`.  Accessing `n.parent.children` with no parent is a
`TypeError`. -/
def nextOne (t : RawNode) (index : Int) (n : Path) : Except Err (List Path) :=
  if 0 ≤ index then
    match parentPath n with
    | none => .error .typeError
    | some pp =>
      let cs := childrenPaths t pp
      if index < (cs.length : Int) - 1 then
        match cs[(index + 1).toNat]? with
        | some c => .ok [c]
        | none => .ok []
      else .ok []
  else .ok []

/-- `Wrapper.prototype.next`: collect `nextOne` over the selection (a thrown
error aborts the iteration), then filter by the selector. -/
def nextM (t : RawNode) (nodes : List Path) (sel : Path → Bool) :
    Except Err (List Path) := do
  let ls ← nodes.mapM (nextOne t (wIndex t nodes))
  pure ((ls.flatten).filter sel)

/-- One step of `Wrapper.prototype.prev` for a node `n`:
`index > 0 ? n.parent.children[index - 1] : []` with `index` again taken from
the selection's first node.  When `index - 1` misses `n`'s parent's children,
the `undefined` entry faults downstream (selector application or the wrapper
invariant); that case is modelled as an error. -/
def prevOne (t : RawNode) (index : Int) (n : Path) : Except Err (List Path) :=
  if 0 < index then
    match parentPath n with
    | none => .error .typeError
    | some pp =>
      match (childrenPaths t pp)[(index - 1).toNat]? with
      | some c => .ok [c]
      | none => .error .typeError
  else .ok []

/-- `Wrapper.prototype.prev`: collect `prevOne` over the selection, then
filter by the selector. -/
def prevM (t : RawNode) (nodes : List Path) (sel : Path → Bool) :
    Except Err (List Path) := do
  let ls ← nodes.mapM (prevOne t (wIndex t nodes))
  pure ((ls.flatten).filter sel)

/-- Modelled from the spec's words for the claim about `next`: for each node
of the selection, the immediate following sibling by that node's own position
in its parent's children array, nodes that are last or parentless
contributing nothing; the results filtered by the selector. -/
def specNext (t : RawNode) (nodes : List Path) (sel : Path → Bool) : List Path :=
  (nodes.flatMap (fun n =>
    match parentPath n with
    | none => []
    | some pp =>
      let cs := childrenPaths t pp
      match jsIndexOf cs n with
      | .ofNat i => ((cs[i + 1]?).map (fun c => [c])).getD []
      | _ => [])).filter sel

/-- Modelled from the spec's words for the claim about `prev`: the immediate
preceding sibling by each node's own position, first/parentless nodes
contributing nothing. -/
def specPrev (t : RawNode) (nodes : List Path) (sel : Path → Bool) : List Path :=
  (nodes.flatMap (fun n =>
    match parentPath n with
    | none => []
    | some pp =>
      let cs := childrenPaths t pp
      match jsIndexOf cs n with
      | .ofNat (i + 1) => ((cs[i]?).map (fun c => [c])).getD []
      | _ => [])).filter sel

/-! ## The query function and the `Wrapper` constructor

`module.exports` returns `(node) => $(node)`; the `Wrapper` constructor
replaces a falsy argument by the overlay root, flattens one level, and
requires every element to be a `Node` instance (`invariant`).  The node
identity type `ν` is abstract here (the constructor never looks inside a
`Node`). -/

/-- One element of a query argument: a primitive value, a raw (plain object)
node, or an overlay `Node` instance. -/
inductive QueryItem (ν : Type _) where
  | prim (v : JSArg)
  | raw (r : RawNode)
  | wrapped (n : ν)

/-- The argument to the query function: a single value or an array. -/
inductive QueryArg (ν : Type _) where
  | single (x : QueryItem ν)
  | seq (xs : List (QueryItem ν))

/-- `Node.isNode`: `node instanceof Node`. -/
def QueryItem.isNode {ν : Type _} : QueryItem ν → Bool
  | .wrapped _ => true
  | _ => false

/-- JavaScript truthiness of a query argument: objects and arrays are
truthy; primitives by their own truthiness. -/
def queryArgTruthy {ν : Type _} : QueryArg ν → Bool
  | .single (.prim v) => v.truthy
  | .single _ => true
  | .seq _ => true

/-- `_.flatten([node])`: one level of flattening. -/
def flattenArg {ν : Type _} : QueryArg ν → List (QueryItem ν)
  | .single x => [x]
  | .seq xs => xs

/-- The query function composed with the `Wrapper` constructor:
`if (!node) node = ROOT; let nodes = _.flatten([node]);
invariant(_.every(nodes, Node.isNode), ...); this.nodes = nodes`. -/
def query {ν : Type _} (root : ν) : Option (QueryArg ν) → Except Err (List ν)
  | none => .ok [root]
  | some a =>
    if queryArgTruthy a then
      let items := flattenArg a
      if items.all QueryItem.isNode then
        .ok (items.filterMap (fun x =>
          match x with
          | .wrapped n => some n
          | _ => none))
      else .error .invariantError
    else .ok [root]

/-! ## The mutable overlay: a heap of `Node` records

The mutation methods (`after`, `before`, `remove`, `replace`) splice the
overlay's `children` arrays in place.  To model object identity and in-place
mutation, the overlay is a heap: a list of `Node` records indexed by
allocation order; a `Node` reference is its index. -/

/-- A `Node` record of the mutable overlay: the raw payload (`this.node`),
the parent reference, and the children array (`null` when the node was
constructed without children). -/
structure ONode where
  raw : RawNode
  parent : Option Nat
  childrenIds : Option (List Nat)
deriving DecidableEq

/-- The overlay heap; a node id is an index into it. -/
abbrev Heap := List ONode

/-- The record of node `i`, when `i` is allocated. -/
def nodeAt (h : Heap) (i : Nat) : Option ONode :=
  h[i]?

/-- `n.parent` of node `i`. -/
def parentAt (h : Heap) (i : Nat) : Option Nat :=
  (nodeAt h i).bind (·.parent)

/-- `n.children` of node `i`, defaulting to the empty array (the operations
below only read it behind a `hasChildren` guard, where it is present). -/
def childrenList (h : Heap) (i : Nat) : List Nat :=
  ((nodeAt h i).bind (·.childrenIds)).getD []

/-- `hasChildren(this.node)` for node `i`. -/
def hasKids (h : Heap) (i : Nat) : Bool :=
  match nodeAt h i with
  | some n => rawHasChildren n.raw
  | none => false

/-- Replace the record at index `i`. -/
def modifyAt : Heap → Nat → (ONode → ONode) → Heap
  | [], _, _ => []
  | x :: xs, 0, f => f x :: xs
  | x :: xs, n + 1, f => x :: modifyAt xs n f

/-- In-place assignment of node `i`'s children array. -/
def setChildren (h : Heap) (i : Nat) (cs : List Nat) : Heap :=
  modifyAt h i (fun n => { n with childrenIds := some cs })

/-- `Array.prototype.splice(k, 0, a)`. -/
def spliceIns (l : List Nat) (k : Nat) (a : Nat) : List Nat :=
  l.take k ++ a :: l.drop k

/-- `Array.prototype.splice(k, 1)`. -/
def spliceDel (l : List Nat) (k : Nat) : List Nat :=
  l.take k ++ l.drop (k + 1)

/-- `Array.prototype.splice(k, 1, a)`. -/
def spliceRep (l : List Nat) (k : Nat) (a : Nat) : List Nat :=
  l.take k ++ a :: l.drop (k + 1)

mutual

/-- The `Node` constructor over the heap: allocate this record (children
still unset), recursively wrap the children with `this` as parent, then
store their references. -/
def buildNode (r : RawNode) (parent : Option Nat) (h : Heap) : Heap × Nat :=
  match r with
  | .leaf ty s => (h ++ [⟨.leaf ty s, parent, none⟩], h.length)
  | .node ty cs =>
    let id := h.length
    let h1 := h ++ [⟨.node ty cs, parent, none⟩]
    let hl := buildList cs id h1
    (setChildren hl.1 id hl.2, id)

/-- `getChildren(node).map((n) => new Node(n, this))`. -/
def buildList (cs : List RawNode) (parent : Nat) (h : Heap) : Heap × List Nat :=
  match cs with
  | [] => (h, [])
  | c :: rest =>
    let hc := buildNode c (some parent) h
    let hr := buildList rest parent hc.1
    (hr.1, hc.2 :: hr.2)

end

/-- `Node.create(ast)` for the session root: the root gets id `0`. -/
def buildHeap (t : RawNode) : Heap :=
  (buildNode t none []).1

/-- The argument of an insertion (or the value a `replace` callback
returns): a raw node or an existing overlay `Node`. -/
inductive InsertArg where
  | raw (r : RawNode)
  | wrapped (id : Nat)

/-- `Node.create(node, parent)`: build a fresh wrapper for a raw node;
return a wrapped node unchanged (its parent pointer is NOT updated). -/
def nodeCreate (h : Heap) (arg : InsertArg) (parent : Nat) : Heap × Nat :=
  match arg with
  | .raw r => buildNode r (some parent) h
  | .wrapped id => (h, id)

/-- One iteration of `Wrapper.remove` for node `n`:
`let p = n.parent; if (!p.hasChildren) continue;
let i = p.children.indexOf(n); if (i >= 0) p.children.splice(i, 1)`.
When `n` has no parent, reading `p.hasChildren` on `undefined` is a
`TypeError`. -/
def removeOne (h : Heap) (n : Nat) : Except Err Heap :=
  match nodeAt h n with
  | none => .error .typeError
  | some nn =>
    match nn.parent with
    | none => .error .typeError
    | some p =>
      if hasKids h p then
        let cs := childrenList h p
        match jsIndexOf cs n with
        | .ofNat i => .ok (setChildren h p (spliceDel cs i))
        | _ => .ok h
      else .ok h

/-- `Wrapper.remove`: iterate over the selection; a thrown error aborts. -/
def removeH (h : Heap) (ids : List Nat) : Except Err Heap :=
  ids.foldlM removeOne h

/-- One iteration of `Wrapper.after` for node `n`:
`let p = n.parent; if (!p.hasChildren) continue; let i = $(n).index();
if (i >= 0) p.children.splice(i + 1, 0, Node.create(node, p))`. -/
def afterOne (h : Heap) (arg : InsertArg) (n : Nat) : Except Err Heap :=
  match nodeAt h n with
  | none => .error .typeError
  | some nn =>
    match nn.parent with
    | none => .error .typeError
    | some p =>
      if hasKids h p then
        let cs := childrenList h p
        match jsIndexOf cs n with
        | .ofNat i =>
          let hc := nodeCreate h arg p
          .ok (setChildren hc.1 p (spliceIns cs (i + 1) hc.2))
        | _ => .ok h
      else .ok h

/-- `Wrapper.after`. -/
def afterH (h : Heap) (arg : InsertArg) (ids : List Nat) : Except Err Heap :=
  ids.foldlM (fun acc n => afterOne acc arg n) h

/-- One iteration of `Wrapper.before` for node `n`:
`let i = p.children.indexOf(n); if (i >= 0) p.children.splice(i, 0, Node.create(node, p))`. -/
def beforeOne (h : Heap) (arg : InsertArg) (n : Nat) : Except Err Heap :=
  match nodeAt h n with
  | none => .error .typeError
  | some nn =>
    match nn.parent with
    | none => .error .typeError
    | some p =>
      if hasKids h p then
        let cs := childrenList h p
        match jsIndexOf cs n with
        | .ofNat i =>
          let hc := nodeCreate h arg p
          .ok (setChildren hc.1 p (spliceIns cs i hc.2))
        | _ => .ok h
      else .ok h

/-- `Wrapper.before`. -/
def beforeH (h : Heap) (arg : InsertArg) (ids : List Nat) : Except Err Heap :=
  ids.foldlM (fun acc n => beforeOne acc arg n) h

/-- One iteration of `Wrapper.replace` for node `n`:
`let i = p.children.indexOf(n); if (i >= 0) p.children.splice(i, 1, Node.create(fn(n), p))`. -/
def replaceOne (h : Heap) (f : Nat → InsertArg) (n : Nat) : Except Err Heap :=
  match nodeAt h n with
  | none => .error .typeError
  | some nn =>
    match nn.parent with
    | none => .error .typeError
    | some p =>
      if hasKids h p then
        let cs := childrenList h p
        match jsIndexOf cs n with
        | .ofNat i =>
          let hc := nodeCreate h (f n) p
          .ok (setChildren hc.1 p (spliceRep cs i hc.2))
        | _ => .ok h
      else .ok h

/-- `Wrapper.replace`. -/
def replaceH (h : Heap) (f : Nat → InsertArg) (ids : List Nat) : Except Err Heap :=
  ids.foldlM (fun acc n => replaceOne acc f n) h

/-! ## Heap invariants -/

/-- No children array holds a dangling or duplicated child reference: every
children array is duplicate-free and every referenced child is an allocated
node whose parent pointer is the holder (so no id can occur in two distinct
children arrays either). -/
def heapChildrenConsistent (h : Heap) : Prop :=
  ∀ p, p < h.length →
    (childrenList h p).Nodup ∧
      ∀ c ∈ childrenList h p, c < h.length ∧ parentAt h c = some p

/-- A node's children array is present exactly when the adapter reports
children for its raw payload. -/
def heapFieldOK (h : Heap) : Prop :=
  ∀ i, i < h.length → (((nodeAt h i).bind (·.childrenIds)).isSome = hasKids h i)

/-- Node `c`, if it carries a parent pointer, occurs in that parent's
children array. -/
def heapParentAttached (h : Heap) (c : Nat) : Prop :=
  match parentAt h c with
  | none => True
  | some p => p < h.length ∧ c ∈ childrenList h p

instance (h : Heap) (c : Nat) : Decidable (heapParentAttached h c) :=
  match hp : parentAt h c with
  | none => .isTrue (by unfold heapParentAttached; rw [hp]; trivial)
  | some p =>
    decidable_of_iff (p < h.length ∧ c ∈ childrenList h p)
      (by unfold heapParentAttached; rw [hp])

instance (h : Heap) : Decidable (heapChildrenConsistent h) := by
  unfold heapChildrenConsistent
  exact inferInstance

instance (h : Heap) : Decidable (heapFieldOK h) := by
  unfold heapFieldOK
  exact inferInstance

/-- Specification of the heap extension produced by recursively wrapping a
fresh raw node (or a list of raw siblings): `tops` are the newly built
top-level wrappers, which carry the requested parent pointer and are not yet
referenced by any children array; every other new node is attached inside
the extension. -/
structure FreshBlock (h h2 : Heap) (pid : Option Nat) (tops : List Nat) : Prop where
  len_le : h.length ≤ h2.length
  prefix_eq : ∀ j, j < h.length → nodeAt h2 j = nodeAt h j
  tops_lb : ∀ t ∈ tops, h.length ≤ t ∧ t < h2.length
  tops_nodup : tops.Nodup
  tops_parent : ∀ t ∈ tops, parentAt h2 t = pid
  new_children : ∀ j, h.length ≤ j → j < h2.length →
    (childrenList h2 j).Nodup ∧
      ∀ c ∈ childrenList h2 j, h.length < c ∧ c < h2.length ∧ parentAt h2 c = some j
  new_attached : ∀ j, h.length ≤ j → j < h2.length → j ∉ tops →
    ∃ q, h.length ≤ q ∧ q < h2.length ∧ parentAt h2 j = some q ∧ j ∈ childrenList h2 q
  new_field : ∀ j, h.length ≤ j → j < h2.length →
    ((nodeAt h2 j).bind (·.childrenIds)).isSome = hasKids h2 j

/-- The overlay's parent/children consistency invariant. -/
def heapWF (h : Heap) : Prop :=
  heapChildrenConsistent h ∧ heapFieldOK h ∧ ∀ c, c < h.length → heapParentAttached h c

instance (h : Heap) : Decidable (heapWF h) := by
  unfold heapWF
  exact inferInstance

/-- The part of the invariant that every mutation preserves in full. -/
def heapCore (h : Heap) : Prop :=
  heapChildrenConsistent h ∧ heapFieldOK h

/-- Every allocated node outside `bad` is attached below its parent. -/
def attachedExcept (h : Heap) (bad : List Nat) : Prop :=
  ∀ c, c < h.length → c ∉ bad → heapParentAttached h c

/-! ## Reduce computes a post-order filter -/

mutual

theorem nreduce_collect (sel : Path → Bool) :
    ∀ (s : RawNode) (p : Path) (acc : List Path),
      nreduce (collectStep sel) s p acc = acc ++ (postPaths s p).filter sel
  | .leaf ty v, p, acc => by
    simp only [nreduce, postPaths, collectStep, List.filter]
    cases sel p <;> simp
  | .node ty cs, p, acc => by
    simp only [nreduce, postPaths, lreduce_collect sel cs p 0 acc, collectStep,
      List.filter_append, List.filter]
    cases sel p <;> simp

theorem lreduce_collect (sel : Path → Bool) :
    ∀ (cs : List RawNode) (p : Path) (i : Nat) (acc : List Path),
      lreduce (collectStep sel) cs p i acc = acc ++ (postList cs p i).filter sel
  | [], p, i, acc => by simp [lreduce, postList]
  | c :: cs, p, i, acc => by
    simp only [lreduce, postList, lreduce_collect sel cs p (i + 1),
      nreduce_collect sel c (p ++ [i]) acc, List.filter_append, List.append_assoc]

end

/-- What `find` computes for one selected node: the post-order matches of its
whole subtree, the node itself included. -/
theorem findM_eq_subtreePostMatches (t : RawNode) (sel : Path → Bool)
    (nodes : List Path) : findM t sel nodes = subtreePostMatches t sel nodes := by
  unfold findM subtreePostMatches
  congr 1
  apply List.flatMap_congr
  intro p _
  cases subtreeAt t p with
  | none => rfl
  | some s => simpa using nreduce_collect sel s p []

/-! ## `toJSON` round trip -/

mutual

theorem nodeToJSON_id : ∀ t : RawNode, nodeToJSON t = t
  | .leaf _ _ => rfl
  | .node ty cs => by
    simp only [nodeToJSON, rawToJSON, nodeToJSONList_id cs]

theorem nodeToJSONList_id : ∀ cs : List RawNode, nodeToJSONList cs = cs
  | [] => rfl
  | c :: cs => by
    simp only [nodeToJSONList, nodeToJSON_id c, nodeToJSONList_id cs]

end

/-! ## Basic heap lemmas -/

theorem modifyAt_length (h : Heap) (i : Nat) (f : ONode → ONode) :
    (modifyAt h i f).length = h.length := by
  induction h generalizing i with
  | nil => rfl
  | cons x xs ih => cases i <;> simp [modifyAt, ih]

theorem nodeAt_modifyAt_ne (h : Heap) (i j : Nat) (f : ONode → ONode) (hne : j ≠ i) :
    nodeAt (modifyAt h i f) j = nodeAt h j := by
  induction h generalizing i j with
  | nil => rfl
  | cons x xs ih =>
    cases i with
    | zero =>
      cases j with
      | zero => exact absurd rfl hne
      | succ j => simp [modifyAt, nodeAt]
    | succ i =>
      cases j with
      | zero => simp [modifyAt, nodeAt]
      | succ j =>
        simp only [modifyAt, nodeAt, List.getElem?_cons_succ]
        exact ih i j (fun hc => hne (by rw [hc]))

theorem nodeAt_modifyAt_self (h : Heap) (i : Nat) (f : ONode → ONode) :
    nodeAt (modifyAt h i f) i = (nodeAt h i).map f := by
  induction h generalizing i with
  | nil => rfl
  | cons x xs ih =>
    cases i with
    | zero => simp [modifyAt, nodeAt]
    | succ i =>
      simp only [modifyAt, nodeAt, List.getElem?_cons_succ]
      exact ih i

theorem nodeAt_lt_length {h : Heap} {i : Nat} {n : ONode} (hn : nodeAt h i = some n) :
    i < h.length :=
  (List.getElem?_eq_some.mp hn).1

theorem nodeAt_append_lt (h h' : Heap) (j : Nat) (hj : j < h.length) :
    nodeAt (h ++ h') j = nodeAt h j :=
  List.getElem?_append_left hj

theorem nodeAt_append_self (h : Heap) (x : ONode) :
    nodeAt (h ++ [x]) h.length = some x :=
  List.getElem?_concat_length h x

theorem parentAt_congr {h1 h2 : Heap} {j : Nat} (hn : nodeAt h1 j = nodeAt h2 j) :
    parentAt h1 j = parentAt h2 j := by
  unfold parentAt
  rw [hn]

theorem childrenList_congr {h1 h2 : Heap} {j : Nat} (hn : nodeAt h1 j = nodeAt h2 j) :
    childrenList h1 j = childrenList h2 j := by
  unfold childrenList
  rw [hn]

theorem hasKids_congr {h1 h2 : Heap} {j : Nat} (hn : nodeAt h1 j = nodeAt h2 j) :
    hasKids h1 j = hasKids h2 j := by
  unfold hasKids
  rw [hn]

theorem setChildren_length (h : Heap) (i : Nat) (cs : List Nat) :
    (setChildren h i cs).length = h.length :=
  modifyAt_length h i _

theorem parentAt_setChildren (h : Heap) (i : Nat) (cs : List Nat) (j : Nat) :
    parentAt (setChildren h i cs) j = parentAt h j := by
  unfold parentAt setChildren
  rcases eq_or_ne j i with rfl | hne
  · rw [nodeAt_modifyAt_self]
    cases nodeAt h j <;> rfl
  · rw [nodeAt_modifyAt_ne _ _ _ _ hne]

theorem hasKids_setChildren (h : Heap) (i : Nat) (cs : List Nat) (j : Nat) :
    hasKids (setChildren h i cs) j = hasKids h j := by
  unfold hasKids setChildren
  rcases eq_or_ne j i with rfl | hne
  · rw [nodeAt_modifyAt_self]
    cases nodeAt h j <;> rfl
  · rw [nodeAt_modifyAt_ne _ _ _ _ hne]

theorem nodeAt_setChildren_ne (h : Heap) (i : Nat) (cs : List Nat) (j : Nat)
    (hne : j ≠ i) : nodeAt (setChildren h i cs) j = nodeAt h j :=
  nodeAt_modifyAt_ne h i j _ hne

theorem childrenList_setChildren_ne (h : Heap) (i : Nat) (cs : List Nat) (j : Nat)
    (hne : j ≠ i) : childrenList (setChildren h i cs) j = childrenList h j := by
  unfold childrenList setChildren
  rw [nodeAt_modifyAt_ne _ _ _ _ hne]

theorem childrenList_setChildren_self (h : Heap) (i : Nat) (cs : List Nat)
    (hi : i < h.length) : childrenList (setChildren h i cs) i = cs := by
  unfold childrenList setChildren
  rw [nodeAt_modifyAt_self]
  obtain ⟨n, hn⟩ : ∃ n, nodeAt h i = some n := by
    unfold nodeAt
    exact ⟨h[i], List.getElem?_eq_getElem hi⟩
  rw [hn]
  rfl

theorem childrenIds_setChildren_self (h : Heap) (i : Nat) (cs : List Nat)
    (hi : i < h.length) :
    ((nodeAt (setChildren h i cs) i).bind (·.childrenIds)) = some cs := by
  unfold setChildren
  rw [nodeAt_modifyAt_self]
  obtain ⟨n, hn⟩ : ∃ n, nodeAt h i = some n := by
    unfold nodeAt
    exact ⟨h[i], List.getElem?_eq_getElem hi⟩
  rw [hn]
  rfl

theorem childrenList_nonallocated {h : Heap} {p : Nat} {c : Nat}
    (hc : c ∈ childrenList h p) : p < h.length := by
  by_contra hp
  have : nodeAt h p = none := List.getElem?_eq_none (by omega)
  rw [childrenList, this] at hc
  simp at hc

theorem jsIndexOf_eq_ofNat {α : Type _} [DecidableEq α] {l : List α} {a : α} {i : Nat}
    (h : jsIndexOf l a = Int.ofNat i) : a ∈ l ∧ i = l.indexOf a := by
  unfold jsIndexOf at h
  by_cases hm : a ∈ l
  · refine ⟨hm, ?_⟩
    rw [if_pos hm] at h
    have h' : ((l.indexOf a : Nat) : Int) = ((i : Nat) : Int) := h
    exact_mod_cast h'.symm
  · rw [if_neg hm] at h
    cases h

/-! ## Splice lemmas -/

theorem mem_spliceIns (l : List Nat) (k a x : Nat) :
    x ∈ spliceIns l k a ↔ x = a ∨ x ∈ l := by
  unfold spliceIns
  have hl := List.take_append_drop k l
  constructor
  · intro hx
    rcases List.mem_append.mp hx with hx | hx
    · exact Or.inr (List.mem_of_mem_take hx)
    · rcases List.mem_cons.mp hx with rfl | hx
      · exact Or.inl rfl
      · exact Or.inr (List.mem_of_mem_drop hx)
  · intro hx
    rcases hx with rfl | hx
    · exact List.mem_append.mpr (Or.inr (List.mem_cons_self _ _))
    · rw [← hl] at hx
      rcases List.mem_append.mp hx with hx | hx
      · exact List.mem_append.mpr (Or.inl hx)
      · exact List.mem_append.mpr (Or.inr (List.mem_cons_of_mem _ hx))

theorem nodup_append_cons {t s : List Nat} {a : Nat} (h : (t ++ s).Nodup)
    (ha : a ∉ t ++ s) : (t ++ a :: s).Nodup := by
  rw [List.nodup_append] at h
  obtain ⟨ht, hs, hd⟩ := h
  rw [List.mem_append] at ha
  push_neg at ha
  rw [List.nodup_append]
  refine ⟨ht, List.nodup_cons.mpr ⟨ha.2, hs⟩, ?_⟩
  rw [List.disjoint_cons_right]
  exact ⟨ha.1, hd⟩

theorem nodup_spliceIns (l : List Nat) (k a : Nat) (hn : l.Nodup) (ha : a ∉ l) :
    (spliceIns l k a).Nodup := by
  unfold spliceIns
  apply nodup_append_cons
  · rw [List.take_append_drop]
    exact hn
  · rw [List.take_append_drop]
    exact ha

theorem spliceDel_sublist (l : List Nat) (k : Nat) :
    List.Sublist (spliceDel l k) l := by
  unfold spliceDel
  have hs : List.Sublist (l.take k ++ l.drop (k + 1)) (l.take k ++ l.drop k) := by
    apply List.Sublist.append_left
    have := List.drop_sublist 1 (l.drop k)
    simpa [List.drop_drop] using this
  rw [List.take_append_drop] at hs
  exact hs

theorem nodup_spliceDel (l : List Nat) (k : Nat) (hn : l.Nodup) :
    (spliceDel l k).Nodup :=
  hn.sublist (spliceDel_sublist l k)

theorem mem_spliceDel {l : List Nat} {k x : Nat} (h : x ∈ spliceDel l k) : x ∈ l :=
  (spliceDel_sublist l k).mem h

theorem decompose_at (l : List Nat) (k : Nat) (hk : k < l.length) :
    l = l.take k ++ l[k] :: l.drop (k + 1) := by
  rw [List.getElem_cons_drop l k hk, List.take_append_drop]

theorem mem_spliceDel_of_ne {l : List Nat} {k x : Nat} (hk : k < l.length)
    (hx : x ∈ l) (hne : x ≠ l[k]) : x ∈ spliceDel l k := by
  unfold spliceDel
  rw [decompose_at l k hk, List.mem_append, List.mem_cons] at hx
  rcases hx with hx | hx | hx
  · exact List.mem_append.mpr (Or.inl hx)
  · exact absurd hx hne
  · exact List.mem_append.mpr (Or.inr hx)

theorem mem_spliceRep {l : List Nat} {k a x : Nat} (h : x ∈ spliceRep l k a) :
    x = a ∨ x ∈ l := by
  unfold spliceRep at h
  rcases List.mem_append.mp h with hx | hx
  · exact Or.inr (List.mem_of_mem_take hx)
  · rcases List.mem_cons.mp hx with rfl | hx
    · exact Or.inl rfl
    · exact Or.inr (List.mem_of_mem_drop hx)

theorem mem_spliceRep_of_ne {l : List Nat} {k a x : Nat} (hk : k < l.length)
    (hx : x ∈ l) (hne : x ≠ l[k]) : x ∈ spliceRep l k a := by
  unfold spliceRep
  rw [decompose_at l k hk, List.mem_append, List.mem_cons] at hx
  rcases hx with hx | hx | hx
  · exact List.mem_append.mpr (Or.inl hx)
  · exact absurd hx hne
  · exact List.mem_append.mpr (Or.inr (List.mem_cons_of_mem _ hx))

theorem nodup_spliceRep (l : List Nat) (k a : Nat) (hn : l.Nodup) (ha : a ∉ l) :
    (spliceRep l k a).Nodup := by
  unfold spliceRep
  apply nodup_append_cons
  · exact nodup_spliceDel l k hn
  · intro hmem
    exact ha (mem_spliceDel hmem)

/-! ## The `Node` constructor produces a fresh, internally consistent block -/

mutual

theorem buildNode_block : ∀ (r : RawNode) (pid : Option Nat) (h : Heap),
    (buildNode r pid h).2 = h.length ∧
      FreshBlock h (buildNode r pid h).1 pid [(buildNode r pid h).2]
  | .leaf ty s, pid, h => by
    have hred : buildNode (.leaf ty s) pid h = (h ++ [⟨.leaf ty s, pid, none⟩], h.length) :=
      rfl
    rw [hred]
    dsimp only
    refine ⟨rfl, ?_⟩
    have hself := nodeAt_append_self h ⟨.leaf ty s, pid, none⟩
    have hlen : (h ++ [(⟨.leaf ty s, pid, none⟩ : ONode)]).length = h.length + 1 := by
      simp
    refine ⟨?_, ?_, ?_, ?_, ?_, ?_, ?_, ?_⟩
    · omega
    · intro j hj
      exact nodeAt_append_lt h _ j hj
    · intro t ht
      rw [List.mem_singleton] at ht
      subst ht
      exact ⟨le_refl _, by omega⟩
    · simp
    · intro t ht
      rw [List.mem_singleton] at ht
      subst ht
      unfold parentAt
      rw [hself]
      rfl
    · intro j hj1 hj2
      rw [hlen] at hj2
      have hj : j = h.length := by omega
      subst hj
      have hcl : childrenList (h ++ [⟨.leaf ty s, pid, none⟩]) h.length = [] := by
        unfold childrenList
        rw [hself]
        rfl
      rw [hcl]
      exact ⟨List.nodup_nil, fun c hc => absurd hc (List.not_mem_nil c)⟩
    · intro j hj1 hj2 hnt
      rw [hlen] at hj2
      have hj : j = h.length := by omega
      subst hj
      exact absurd (List.mem_singleton.mpr rfl) hnt
    · intro j hj1 hj2
      rw [hlen] at hj2
      have hj : j = h.length := by omega
      subst hj
      unfold hasKids
      rw [hself]
      rfl
  | .node ty cs, pid, h => by
    have hb := buildList_block cs h.length (h ++ [⟨.node ty cs, pid, none⟩])
    have he : buildNode (.node ty cs) pid h =
        (setChildren (buildList cs h.length (h ++ [⟨.node ty cs, pid, none⟩])).1 h.length
          (buildList cs h.length (h ++ [⟨.node ty cs, pid, none⟩])).2, h.length) := rfl
    rw [he]
    refine ⟨rfl, ?_⟩
    set h2 := (buildList cs h.length (h ++ [⟨.node ty cs, pid, none⟩])).1 with hh2
    set ids := (buildList cs h.length (h ++ [⟨.node ty cs, pid, none⟩])).2 with hids
    have hl1 : (h ++ [(⟨.node ty cs, pid, none⟩ : ONode)]).length = h.length + 1 := by
      simp
    have hle : (h ++ [(⟨.node ty cs, pid, none⟩ : ONode)]).length ≤ h2.length :=
      hb.len_le
    have hlen2 : h.length < h2.length := by omega
    have hroot : nodeAt h2 h.length = some ⟨.node ty cs, pid, none⟩ := by
      rw [hb.prefix_eq h.length (by omega), nodeAt_append_self]
    have hlen3 : (setChildren h2 h.length ids).length = h2.length :=
      setChildren_length h2 h.length ids
    refine ⟨?_, ?_, ?_, ?_, ?_, ?_, ?_, ?_⟩
    · rw [hlen3]
      omega
    · intro j hj
      rw [nodeAt_setChildren_ne _ _ _ _ (by omega), hb.prefix_eq j (by omega),
        nodeAt_append_lt h _ j hj]
    · intro t ht
      rw [List.mem_singleton] at ht
      subst ht
      exact ⟨le_refl _, by rw [hlen3]; omega⟩
    · simp
    · intro t ht
      rw [List.mem_singleton] at ht
      subst ht
      rw [parentAt_setChildren]
      unfold parentAt
      rw [hroot]
      rfl
    · intro j hj1 hj2
      rw [hlen3] at hj2
      by_cases hje : j = h.length
      · subst hje
        rw [childrenList_setChildren_self _ _ _ hlen2]
        refine ⟨hb.tops_nodup, fun c hc => ?_⟩
        obtain ⟨hc1, hc2⟩ := hb.tops_lb c hc
        refine ⟨by omega, by rw [hlen3]; exact hc2, ?_⟩
        rw [parentAt_setChildren]
        exact hb.tops_parent c hc
      · rw [childrenList_setChildren_ne _ _ _ _ hje]
        obtain ⟨hnd, hball⟩ := hb.new_children j (by omega) hj2
        refine ⟨hnd, fun c hc => ?_⟩
        obtain ⟨hc1, hc2, hc3⟩ := hball c hc
        refine ⟨by omega, by rw [hlen3]; exact hc2, ?_⟩
        rw [parentAt_setChildren]
        exact hc3
    · intro j hj1 hj2 hnt
      rw [hlen3] at hj2
      have hje : j ≠ h.length := fun hc => hnt (by rw [hc]; exact List.mem_singleton.mpr rfl)
      by_cases hji : j ∈ ids
      · refine ⟨h.length, le_refl _, by rw [hlen3]; exact hlen2, ?_, ?_⟩
        · rw [parentAt_setChildren]
          exact hb.tops_parent j hji
        · rw [childrenList_setChildren_self _ _ _ hlen2]
          exact hji
      · obtain ⟨q, hq1, hq2, hq3, hq4⟩ := hb.new_attached j (by omega) hj2 hji
        have hqne : q ≠ h.length := by omega
        refine ⟨q, by omega, by rw [hlen3]; exact hq2, ?_, ?_⟩
        · rw [parentAt_setChildren]
          exact hq3
        · rw [childrenList_setChildren_ne _ _ _ _ hqne]
          exact hq4
    · intro j hj1 hj2
      rw [hlen3] at hj2
      rw [hasKids_setChildren]
      by_cases hje : j = h.length
      · subst hje
        rw [childrenIds_setChildren_self _ _ _ hlen2]
        unfold hasKids
        rw [hroot]
        rfl
      · rw [nodeAt_setChildren_ne _ _ _ _ hje]
        exact hb.new_field j (by omega) hj2

theorem buildList_block : ∀ (cs : List RawNode) (parent : Nat) (h : Heap),
    FreshBlock h (buildList cs parent h).1 (some parent) (buildList cs parent h).2
  | [], parent, h => by
    have hred : buildList [] parent h = (h, []) := rfl
    rw [hred]
    dsimp only
    refine ⟨le_refl _, fun j _ => rfl, ?_, ?_, ?_, ?_, ?_, ?_⟩
    · intro t ht
      cases ht
    · exact List.nodup_nil
    · intro t ht
      cases ht
    · intro j hj1 hj2
      omega
    · intro j hj1 hj2 _
      omega
    · intro j hj1 hj2
      omega
  | c :: rest, parent, h => by
    obtain ⟨hcid, hb1⟩ := buildNode_block c (some parent) h
    have hb2 := buildList_block rest parent (buildNode c (some parent) h).1
    have he : buildList (c :: rest) parent h =
        ((buildList rest parent (buildNode c (some parent) h).1).1,
          (buildNode c (some parent) h).2 ::
            (buildList rest parent (buildNode c (some parent) h).1).2) := rfl
    rw [he]
    set h1 := (buildNode c (some parent) h).1 with hh1
    set cid := (buildNode c (some parent) h).2 with hcidd
    set h2 := (buildList rest parent h1).1 with hh2
    set cids := (buildList rest parent h1).2 with hcids
    have hcl : cid < h1.length := (hb1.tops_lb cid (List.mem_singleton.mpr rfl)).2
    have hcg : h.length ≤ cid := (hb1.tops_lb cid (List.mem_singleton.mpr rfl)).1
    have hle1 : h.length ≤ h1.length := hb1.len_le
    have hle2 : h1.length ≤ h2.length := hb2.len_le
    refine ⟨by omega, ?_, ?_, ?_, ?_, ?_, ?_, ?_⟩
    · intro j hj
      rw [hb2.prefix_eq j (by omega), hb1.prefix_eq j hj]
    · intro t ht
      rcases List.mem_cons.mp ht with rfl | ht
      · exact ⟨hcg, by omega⟩
      · obtain ⟨ht1, ht2⟩ := hb2.tops_lb t ht
        exact ⟨by omega, ht2⟩
    · refine List.nodup_cons.mpr ⟨?_, hb2.tops_nodup⟩
      intro hmem
      have := (hb2.tops_lb cid hmem).1
      omega
    · intro t ht
      rcases List.mem_cons.mp ht with rfl | ht
      · rw [parentAt_congr (hb2.prefix_eq cid hcl)]
        exact hb1.tops_parent cid (List.mem_singleton.mpr rfl)
      · exact hb2.tops_parent t ht
    · intro j hj1 hj2
      by_cases hjl : j < h1.length
      · rw [childrenList_congr (hb2.prefix_eq j hjl)]
        obtain ⟨hnd, hball⟩ := hb1.new_children j hj1 hjl
        refine ⟨hnd, fun d hd => ?_⟩
        obtain ⟨hd1, hd2, hd3⟩ := hball d hd
        refine ⟨hd1, by omega, ?_⟩
        rw [parentAt_congr (hb2.prefix_eq d hd2)]
        exact hd3
      · obtain ⟨hnd, hball⟩ := hb2.new_children j (by omega) hj2
        refine ⟨hnd, fun d hd => ?_⟩
        obtain ⟨hd1, hd2, hd3⟩ := hball d hd
        exact ⟨by omega, hd2, hd3⟩
    · intro j hj1 hj2 hnt
      have hne1 : j ≠ cid := fun hc => hnt (by rw [hc]; exact List.mem_cons_self _ _)
      have hne2 : j ∉ cids := fun hc => hnt (List.mem_cons_of_mem _ hc)
      by_cases hjl : j < h1.length
      · obtain ⟨q, hq1, hq2, hq3, hq4⟩ := hb1.new_attached j hj1 hjl
          (by rw [List.mem_singleton]; exact hne1)
        refine ⟨q, hq1, by omega, ?_, ?_⟩
        · rw [parentAt_congr (hb2.prefix_eq j hjl)]
          exact hq3
        · rw [childrenList_congr (hb2.prefix_eq q hq2)]
          exact hq4
      · obtain ⟨q, hq1, hq2, hq3, hq4⟩ := hb2.new_attached j (by omega) hj2 hne2
        exact ⟨q, by omega, hq2, hq3, hq4⟩
    · intro j hj1 hj2
      by_cases hjl : j < h1.length
      · rw [show nodeAt h2 j = nodeAt h1 j from hb2.prefix_eq j hjl,
          hasKids_congr (hb2.prefix_eq j hjl)]
        exact hb1.new_field j hj1 hjl
      · exact hb2.new_field j (by omega) hj2

end

/-! ## Invariant preservation by the mutation operations -/

theorem heapParentAttached_intro {h : Heap} {c : Nat}
    (hp : ∀ p, parentAt h c = some p → p < h.length ∧ c ∈ childrenList h p) :
    heapParentAttached h c := by
  unfold heapParentAttached
  cases hpa : parentAt h c with
  | none => trivial
  | some p => exact hp p hpa

theorem heapParentAttached_elim {h : Heap} {c p : Nat} (ha : heapParentAttached h c)
    (hp : parentAt h c = some p) : p < h.length ∧ c ∈ childrenList h p := by
  unfold heapParentAttached at ha
  rw [hp] at ha
  exact ha

theorem hasKids_lt_length {h : Heap} {p : Nat} (hk : hasKids h p = true) :
    p < h.length := by
  unfold hasKids at hk
  cases hnp : nodeAt h p with
  | none => rw [hnp] at hk; cases hk
  | some nd => exact nodeAt_lt_length hnp

theorem attachedExcept_mono {h : Heap} {bad bad' : List Nat}
    (hsub : ∀ x ∈ bad, x ∈ bad') (ha : attachedExcept h bad) :
    attachedExcept h bad' :=
  fun c hc hcb => ha c hc (fun hx => hcb (hsub c hx))

theorem removeOne_step {h h' : Heap} {n : Nat} {bad : List Nat}
    (hcore : heapCore h) (hatt : attachedExcept h bad)
    (hok : removeOne h n = .ok h') : heapCore h' ∧ attachedExcept h' (n :: bad) := by
  unfold removeOne at hok
  split at hok
  · exact Except.noConfusion hok
  next nn hnn =>
    split at hok
    · exact Except.noConfusion hok
    next p hpn =>
      split at hok
      case isTrue hk =>
        dsimp only at hok
        split at hok
        next i hio =>
          rw [Except.ok.injEq] at hok
          subst hok
          obtain ⟨hmem, hidx⟩ := jsIndexOf_eq_ofNat hio
          have hp : p < h.length := childrenList_nonallocated hmem
          have hilt : i < (childrenList h p).length := by
            rw [hidx]
            exact List.indexOf_lt_length.mpr hmem
          have hcsn : (childrenList h p)[i] = n := by
            subst hidx
            exact List.getElem_indexOf hilt
          obtain ⟨hcons, hfield⟩ := hcore
          obtain ⟨hnd_p, hball_p⟩ := hcons p hp
          have hlen' : (setChildren h p (spliceDel (childrenList h p) i)).length
              = h.length := setChildren_length _ _ _
          refine ⟨⟨?_, ?_⟩, ?_⟩
          · intro q hq
            rw [hlen'] at hq
            by_cases hqp : q = p
            · subst hqp
              rw [childrenList_setChildren_self _ _ _ hp]
              refine ⟨nodup_spliceDel _ _ hnd_p, fun c hc => ?_⟩
              have hc' : c ∈ childrenList h q := mem_spliceDel hc
              obtain ⟨hlt, hpar⟩ := hball_p c hc'
              exact ⟨by rw [hlen']; exact hlt, by rw [parentAt_setChildren]; exact hpar⟩
            · rw [childrenList_setChildren_ne _ _ _ _ hqp]
              obtain ⟨hnd, hball⟩ := hcons q hq
              refine ⟨hnd, fun c hc => ?_⟩
              obtain ⟨hlt, hpar⟩ := hball c hc
              exact ⟨by rw [hlen']; exact hlt, by rw [parentAt_setChildren]; exact hpar⟩
          · intro j hj
            rw [hlen'] at hj
            rw [hasKids_setChildren]
            by_cases hjp : j = p
            · subst hjp
              rw [childrenIds_setChildren_self _ _ _ hp]
              exact hk.symm
            · unfold setChildren
              rw [nodeAt_modifyAt_ne _ _ _ _ hjp]
              exact hfield j hj
          · intro c hc hcb
            rw [hlen'] at hc
            have hcn : c ≠ n := fun hceq => hcb (by rw [hceq]; exact List.mem_cons_self _ _)
            have hcb' : c ∉ bad := fun hx => hcb (List.mem_cons_of_mem _ hx)
            have hattc := hatt c hc hcb'
            apply heapParentAttached_intro
            intro q hq
            rw [parentAt_setChildren] at hq
            obtain ⟨hqlt, hcmem⟩ := heapParentAttached_elim hattc hq
            refine ⟨by rw [hlen']; exact hqlt, ?_⟩
            by_cases hqp : q = p
            · subst hqp
              rw [childrenList_setChildren_self _ _ _ hp]
              exact mem_spliceDel_of_ne hilt hcmem (by rw [hcsn]; exact hcn)
            · rw [childrenList_setChildren_ne _ _ _ _ hqp]
              exact hcmem
        next k hio =>
          rw [Except.ok.injEq] at hok
          subst hok
          exact ⟨hcore, attachedExcept_mono (fun x hx => List.mem_cons_of_mem _ hx) hatt⟩
      case isFalse hk =>
        rw [Except.ok.injEq] at hok
        subst hok
        exact ⟨hcore, attachedExcept_mono (fun x hx => List.mem_cons_of_mem _ hx) hatt⟩

/-- `a` is the element inserted by `splice(k, 1, a)`. -/
theorem self_mem_spliceRep (l : List Nat) (k a : Nat) : a ∈ spliceRep l k a :=
  List.mem_append.mpr (Or.inr (List.mem_cons_self _ _))

/-- Shared invariant-preservation argument for the operations that build a
fresh wrapper for a raw node and splice the parent's children array to a new
list `cs'` containing it: `after`/`before` (`excl = []`) and `replace`
(`excl = [n]`, the replaced node). -/
theorem freshSplice_step {h : Heap} {p : Nat} (bad excl : List Nat) (r : RawNode)
    (cs' : List Nat)
    (hcore : heapCore h) (hatt : attachedExcept h bad)
    (hk : hasKids h p = true) (hp : p < h.length)
    (hnodup : (childrenList h p).Nodup → (buildNode r (some p) h).2 ∉ childrenList h p →
      cs'.Nodup)
    (hsub : ∀ c ∈ cs', c = (buildNode r (some p) h).2 ∨ c ∈ childrenList h p)
    (hnid : (buildNode r (some p) h).2 ∈ cs')
    (hkeep : ∀ c ∈ childrenList h p, c ∉ excl → c ∈ cs') :
    heapCore (setChildren (buildNode r (some p) h).1 p cs') ∧
      attachedExcept (setChildren (buildNode r (some p) h).1 p cs') (excl ++ bad) := by
  obtain ⟨hnid_eq, hblk⟩ := buildNode_block r (some p) h
  set h2 := (buildNode r (some p) h).1 with hh2
  set nid := (buildNode r (some p) h).2 with hnid2
  have hle : h.length ≤ h2.length := hblk.len_le
  have hnl : nid < h2.length := (hblk.tops_lb nid (List.mem_singleton.mpr rfl)).2
  have hp2 : p < h2.length := by omega
  have hlen' : (setChildren h2 p cs').length = h2.length := setChildren_length _ _ _
  obtain ⟨hcons, hfield⟩ := hcore
  obtain ⟨hnd_p, hball_p⟩ := hcons p hp
  have hnidncs : nid ∉ childrenList h p := by
    intro hmem
    have := (hball_p nid hmem).1
    omega
  have hnd' : cs'.Nodup := hnodup hnd_p hnidncs
  have hclp : childrenList (setChildren h2 p cs') p = cs' :=
    childrenList_setChildren_self _ _ _ hp2
  have hclq : ∀ q, q ≠ p → childrenList (setChildren h2 p cs') q = childrenList h2 q :=
    fun q hq => childrenList_setChildren_ne _ _ _ _ hq
  have hold : ∀ j, j < h.length → nodeAt h2 j = nodeAt h j := hblk.prefix_eq
  refine ⟨⟨?_, ?_⟩, ?_⟩
  · intro q hq
    rw [hlen'] at hq
    by_cases hqp : q = p
    · subst hqp
      rw [hclp]
      refine ⟨hnd', fun c hc => ?_⟩
      rcases hsub c hc with rfl | hcold
      · refine ⟨by rw [hlen']; exact hnl, ?_⟩
        rw [parentAt_setChildren]
        exact hblk.tops_parent nid (List.mem_singleton.mpr rfl)
      · obtain ⟨hlt, hpar⟩ := hball_p c hcold
        refine ⟨by rw [hlen']; omega, ?_⟩
        rw [parentAt_setChildren, parentAt_congr (hold c hlt)]
        exact hpar
    · rw [hclq q hqp]
      by_cases hql : q < h.length
      · rw [childrenList_congr (hold q hql)]
        obtain ⟨hnd, hball⟩ := hcons q hql
        refine ⟨hnd, fun c hc => ?_⟩
        obtain ⟨hlt, hpar⟩ := hball c hc
        refine ⟨by rw [hlen']; omega, ?_⟩
        rw [parentAt_setChildren, parentAt_congr (hold c hlt)]
        exact hpar
      · obtain ⟨hnd, hball⟩ := hblk.new_children q (by omega) hq
        refine ⟨hnd, fun c hc => ?_⟩
        obtain ⟨hc1, hc2, hc3⟩ := hball c hc
        refine ⟨by rw [hlen']; exact hc2, ?_⟩
        rw [parentAt_setChildren]
        exact hc3
  · intro j hj
    rw [hlen'] at hj
    rw [hasKids_setChildren]
    by_cases hjp : j = p
    · subst hjp
      rw [childrenIds_setChildren_self _ _ _ hp2, hasKids_congr (hold j hp)]
      exact hk.symm
    · unfold setChildren
      rw [nodeAt_modifyAt_ne _ _ _ _ hjp]
      by_cases hjl : j < h.length
      · rw [show nodeAt h2 j = nodeAt h j from hold j hjl, hasKids_congr (hold j hjl)]
        exact hfield j hjl
      · exact hblk.new_field j (by omega) hj
  · intro c hc hcb
    rw [hlen'] at hc
    have hcbb : c ∉ bad := fun hx => hcb (List.mem_append.mpr (Or.inr hx))
    have hcex : c ∉ excl := fun hx => hcb (List.mem_append.mpr (Or.inl hx))
    apply heapParentAttached_intro
    intro q hq
    rw [parentAt_setChildren] at hq
    by_cases hcl : c < h.length
    · have hpq : parentAt h c = some q := by
        rw [← parentAt_congr (hold c hcl)]
        exact hq
      obtain ⟨hqlt, hcmem⟩ := heapParentAttached_elim (hatt c hcl hcbb) hpq
      refine ⟨by rw [hlen']; omega, ?_⟩
      by_cases hqp : q = p
      · subst hqp
        rw [hclp]
        exact hkeep c hcmem hcex
      · rw [hclq q hqp, childrenList_congr (hold q hqlt)]
        exact hcmem
    · by_cases hcn : c = nid
      · subst hcn
        have hqq : parentAt h2 nid = some p :=
          hblk.tops_parent nid (List.mem_singleton.mpr rfl)
        rw [hq] at hqq
        have hqp : q = p := Option.some.inj hqq
        subst hqp
        refine ⟨by rw [hlen']; omega, ?_⟩
        rw [hclp]
        exact hnid
      · obtain ⟨q', hq1, hq2, hq3, hq4⟩ := hblk.new_attached c (by omega) hc
          (fun hmem => hcn (List.mem_singleton.mp hmem))
        rw [hq] at hq3
        have hqp : q' = q := Option.some.inj hq3.symm
        subst hqp
        have hqne : q' ≠ p := by omega
        refine ⟨by rw [hlen']; omega, ?_⟩
        rw [hclq q' hqne]
        exact hq4

theorem afterOne_raw_step {h h' : Heap} {r : RawNode} {n : Nat} {bad : List Nat}
    (hcore : heapCore h) (hatt : attachedExcept h bad)
    (hok : afterOne h (.raw r) n = .ok h') : heapCore h' ∧ attachedExcept h' bad := by
  unfold afterOne at hok
  split at hok
  · exact Except.noConfusion hok
  next nn hnn =>
    split at hok
    · exact Except.noConfusion hok
    next p hpn =>
      split at hok
      case isTrue hk =>
        dsimp only at hok
        split at hok
        next i hio =>
          simp only [nodeCreate] at hok
          rw [Except.ok.injEq] at hok
          subst hok
          obtain ⟨hmem, hidx⟩ := jsIndexOf_eq_ofNat hio
          have hp : p < h.length := childrenList_nonallocated hmem
          exact freshSplice_step bad [] r
            (spliceIns (childrenList h p) (i + 1) (buildNode r (some p) h).2) ⟨hcore.1, hcore.2⟩
            hatt hk hp
            (fun hnd hnin => nodup_spliceIns _ _ _ hnd hnin)
            (fun c hc => (mem_spliceIns _ _ _ _).mp hc)
            ((mem_spliceIns _ _ _ _).mpr (Or.inl rfl))
            (fun c hc _ => (mem_spliceIns _ _ _ _).mpr (Or.inr hc))
        next k hio =>
          rw [Except.ok.injEq] at hok
          subst hok
          exact ⟨hcore, hatt⟩
      case isFalse hk =>
        rw [Except.ok.injEq] at hok
        subst hok
        exact ⟨hcore, hatt⟩

theorem beforeOne_raw_step {h h' : Heap} {r : RawNode} {n : Nat} {bad : List Nat}
    (hcore : heapCore h) (hatt : attachedExcept h bad)
    (hok : beforeOne h (.raw r) n = .ok h') : heapCore h' ∧ attachedExcept h' bad := by
  unfold beforeOne at hok
  split at hok
  · exact Except.noConfusion hok
  next nn hnn =>
    split at hok
    · exact Except.noConfusion hok
    next p hpn =>
      split at hok
      case isTrue hk =>
        dsimp only at hok
        split at hok
        next i hio =>
          simp only [nodeCreate] at hok
          rw [Except.ok.injEq] at hok
          subst hok
          obtain ⟨hmem, hidx⟩ := jsIndexOf_eq_ofNat hio
          have hp : p < h.length := childrenList_nonallocated hmem
          exact freshSplice_step bad [] r
            (spliceIns (childrenList h p) i (buildNode r (some p) h).2) ⟨hcore.1, hcore.2⟩
            hatt hk hp
            (fun hnd hnin => nodup_spliceIns _ _ _ hnd hnin)
            (fun c hc => (mem_spliceIns _ _ _ _).mp hc)
            ((mem_spliceIns _ _ _ _).mpr (Or.inl rfl))
            (fun c hc _ => (mem_spliceIns _ _ _ _).mpr (Or.inr hc))
        next k hio =>
          rw [Except.ok.injEq] at hok
          subst hok
          exact ⟨hcore, hatt⟩
      case isFalse hk =>
        rw [Except.ok.injEq] at hok
        subst hok
        exact ⟨hcore, hatt⟩

theorem replaceOne_raw_step {h h' : Heap} {fr : Nat → RawNode} {n : Nat} {bad : List Nat}
    (hcore : heapCore h) (hatt : attachedExcept h bad)
    (hok : replaceOne h (fun m => .raw (fr m)) n = .ok h') :
    heapCore h' ∧ attachedExcept h' (n :: bad) := by
  unfold replaceOne at hok
  split at hok
  · exact Except.noConfusion hok
  next nn hnn =>
    split at hok
    · exact Except.noConfusion hok
    next p hpn =>
      split at hok
      case isTrue hk =>
        dsimp only at hok
        split at hok
        next i hio =>
          simp only [nodeCreate] at hok
          rw [Except.ok.injEq] at hok
          subst hok
          obtain ⟨hmem, hidx⟩ := jsIndexOf_eq_ofNat hio
          have hp : p < h.length := childrenList_nonallocated hmem
          have hilt : i < (childrenList h p).length := by
            rw [hidx]
            exact List.indexOf_lt_length.mpr hmem
          have hcsn : (childrenList h p)[i] = n := by
            subst hidx
            exact List.getElem_indexOf hilt
          have happ := freshSplice_step bad [n] (fr n)
            (spliceRep (childrenList h p) i (buildNode (fr n) (some p) h).2)
            ⟨hcore.1, hcore.2⟩ hatt hk hp
            (fun hnd hnin => nodup_spliceRep _ _ _ hnd hnin)
            (fun c hc => mem_spliceRep hc)
            (self_mem_spliceRep _ _ _)
            (fun c hc hcex => mem_spliceRep_of_ne hilt hc
              (by rw [hcsn]; exact fun hcn => hcex (by rw [hcn]; exact List.mem_singleton.mpr rfl)))
          exact ⟨happ.1, happ.2⟩
        next k hio =>
          rw [Except.ok.injEq] at hok
          subst hok
          exact ⟨hcore, attachedExcept_mono (fun x hx => List.mem_cons_of_mem _ hx) hatt⟩
      case isFalse hk =>
        rw [Except.ok.injEq] at hok
        subst hok
        exact ⟨hcore, attachedExcept_mono (fun x hx => List.mem_cons_of_mem _ hx) hatt⟩

/-- Invariant preservation along a `for (let n of this.nodes)` loop. -/
theorem foldlM_steps (step : Heap → Nat → Except Err Heap)
    (upd : Nat → List Nat → List Nat)
    (hstep : ∀ {h h' : Heap} {n : Nat} {bad : List Nat}, heapCore h →
      attachedExcept h bad → step h n = .ok h' →
      heapCore h' ∧ attachedExcept h' (upd n bad)) :
    ∀ (ids : List Nat) {h h' : Heap} {bad : List Nat}, heapCore h →
      attachedExcept h bad → List.foldlM step h ids = .ok h' →
      heapCore h' ∧ attachedExcept h' (ids.foldl (fun b m => upd m b) bad)
  | [], h, h', bad, hc, ha, hok => by
    rw [List.foldlM_nil] at hok
    rw [show (pure h : Except Err Heap) = .ok h from rfl, Except.ok.injEq] at hok
    subst hok
    exact ⟨hc, ha⟩
  | m :: ids, h, h', bad, hc, ha, hok => by
    rw [List.foldlM_cons] at hok
    cases hs : step h m with
    | error e =>
      rw [hs] at hok
      exact Except.noConfusion hok
    | ok h1 =>
      rw [hs] at hok
      have hok' : List.foldlM step h1 ids = .ok h' := hok
      obtain ⟨hc1, ha1⟩ := hstep hc ha hs
      rw [List.foldl_cons]
      exact foldlM_steps step upd hstep ids hc1 ha1 hok'

theorem mem_foldl_cons : ∀ (ids bad : List Nat) (x : Nat),
    x ∈ ids.foldl (fun b n => n :: b) bad ↔ x ∈ ids ∨ x ∈ bad
  | [], bad, x => by simp
  | m :: ids, bad, x => by
    rw [List.foldl_cons, mem_foldl_cons ids (m :: bad) x]
    simp only [List.mem_cons]
    tauto

theorem foldl_const (ids : List Nat) (bad : List Nat) :
    ids.foldl (fun b (_ : Nat) => b) bad = bad := by
  induction ids with
  | nil => rfl
  | cons m ids ih => rw [List.foldl_cons, ih]

/-! ## Claim theorems over the read model -/

/-- C1, counterexample: on the single-node tree `{ type: 'a', value: 'x' }`,
`$().find('a')` returns the root itself, while the claimed
"descendants of that node (not including the node itself)" would be empty:
`find` tests the selected node too, because `Node.reduce` applies the
callback to the node itself after its children. -/
theorem claim_C1_counterexample :
    findM (.leaf "a" "x") (getSelector (.leaf "a" "x") (.str "a")) [[]] ≠
      specFindDescendants (.leaf "a" "x") (getSelector (.leaf "a" "x") (.str "a")) [[]] := by
  decide

/-- C1 (amended): for every tree, selector and selection, `find` returns,
for each node in the selection, exactly the nodes of that node's subtree
*including the node itself* that satisfy the selector, collected in
depth-first post-order via the overlay's `reduce`, deduplicated by identity
across the whole selection, and concatenated in selection order. -/
theorem claim_C1_find_subtree_postorder (t : RawNode) (sel : Path → Bool)
    (nodes : List Path) : findM t sel nodes = subtreePostMatches t sel nodes :=
  findM_eq_subtreePostMatches t sel nodes

/-- C6, counterexample: on the tree `{ type: 'a', value: 'x' }`, `get()` on
the whole-tree root Selection returns a one-element *array* of JSON nodes,
which does not deep-equal the (normalized) original raw tree itself. -/
theorem claim_C6_counterexample :
    getM (.leaf "a" "x") [[]] none ≠ .ok (.node (nodeToJSON (.leaf "a" "x"))) := by
  decide

/-- C6 (amended): on an unmutated tree, `get()` on the whole-tree root
Selection returns the one-element sequence whose sole member deep-equals the
structurally-normalized original raw tree (which, for the default adapter,
is the tree itself), and `get(0)` returns that tree directly. -/
theorem claim_C6_roundtrip (t : RawNode) :
    nodeToJSON t = t ∧
    getM t [[]] none = .ok (.arr [nodeToJSON t]) ∧
    getM t [[]] (some (.int 0)) = .ok (.node (nodeToJSON t)) := by
  have hj : jsonAt t [] = t := by simp [jsonAt, rawAt, subtreeAt, nodeToJSON_id]
  refine ⟨nodeToJSON_id t, ?_, ?_⟩ <;> simp [getM, hj, nodeToJSON_id]

/-- C7: `eq` with a non-integer argument raises the invariant error (the
spec's `InvalidArgumentError`); with an out-of-range integer it returns an
empty Selection without error; with an in-range integer it reduces the
selection to exactly the single node at that index. -/
theorem claim_C7_eq (nodes : List Path) (i : Int) (a : JSArg) :
    (a.isInteger = false → eqM nodes (some a) = .error .invariantError) ∧
    (eqM nodes none = .error .invariantError) ∧
    ((i < 0 ∨ (nodes.length : Int) ≤ i) → eqM nodes (some (.int i)) = .ok []) ∧
    (0 ≤ i → i < (nodes.length : Int) →
      ∃ n, nodes[i.toNat]? = some n ∧ eqM nodes (some (.int i)) = .ok [n]) := by
  refine ⟨fun h => ?_, rfl, fun h => ?_, fun h0 hlen => ?_⟩
  · cases a <;> simp_all [JSArg.isInteger, eqM]
  · rcases h with h | h
    · simp [eqM, not_le.mpr h]
    · have hn : nodes[i.toNat]? = none := List.getElem?_eq_none (by omega)
      simp [eqM, hn]
  · have hlt : i.toNat < nodes.length := by omega
    have hg : nodes[i.toNat]? = some nodes[i.toNat] := List.getElem?_eq_getElem hlt
    exact ⟨nodes[i.toNat], hg, by simp [eqM, h0, hg]⟩

/-- C7 witness. -/
theorem claim_C7_eq_witness :
    (eqM [[0]] (some (.str "a")) = .error .invariantError) ∧
    (eqM [[0]] (some (.int 3)) = .ok []) ∧
    (∃ n, ([[0]] : List Path)[0]? = some n ∧ eqM [[0]] (some (.int 0)) = .ok [n]) :=
  ⟨(claim_C7_eq [[0]] 0 (.str "a")).1 rfl,
   (claim_C7_eq [[0]] 3 (.str "a")).2.2.1 (Or.inr (by decide)),
   (claim_C7_eq [[0]] 0 (.str "a")).2.2.2 (by decide) (by decide)⟩

/-- C8: selector resolution is total (`getSelector` is a total function) and
never fails: a string resolves to exact equality with `getType(n.node)`, a
regular expression to a match test on `getType(n.node)`, a function is used
directly as the predicate, and every unrecognized kind (a number, `null`, or
an absent argument) resolves to the always-true predicate. -/
theorem claim_C8_selector (t : RawNode) (s : String) (test : String → Bool)
    (pred : Path → Bool) (i : Int) (p : Path) :
    (getSelector t (.str s) p = true ↔ getType (rawAt t p) = s) ∧
    (getSelector t (.regex test) p = test (typeAt t p)) ∧
    (getSelector t (.fn pred) = pred) ∧
    (getSelector t (.num i) p = true) ∧
    (getSelector t .nullArg p = true) ∧
    (getSelector t .absent p = true) := by
  refine ⟨?_, rfl, rfl, rfl, rfl, rfl⟩
  simp [getSelector, typeAt]

/-- C9: `get` with any non-integer argument (a string, `null`, `false`, or a
fractional number) behaves exactly like `get` with no argument: it maps
every node of the selection to its JSON reconstruction. -/
theorem claim_C9_get_nonint (t : RawNode) (nodes : List Path) (a : JSArg)
    (h : a.isInteger = false) : getM t nodes (some a) = getM t nodes none := by
  cases a <;> simp_all [getM, JSArg.isInteger]

/-- C9 witness. -/
theorem claim_C9_get_nonint_witness :
    JSArg.isInteger (.str "x") = false ∧
      getM (.leaf "a" "x") [[]] (some (.str "x")) = getM (.leaf "a" "x") [[]] none :=
  ⟨rfl, claim_C9_get_nonint _ _ _ rfl⟩

/-- C3: on the tree `{ type: 'r', value: [x, y] }` with both children
selected, `next()` evaluates `this.index()` — the sibling index of the
selection's FIRST node — for every node, so it returns the second child
twice, where the claimed per-node semantics (`specNext`) returns it once
(the second child, being last, contributes nothing); `prev()` on the
selection `[y, x]` symmetrically returns the first child twice instead of
once. -/
theorem claim_C3_next_prev_use_first_nodes_index :
    nextM (.node "r" [.leaf "x" "a", .leaf "y" "b"]) [[0], [1]]
        (getSelector (.node "r" [.leaf "x" "a", .leaf "y" "b"]) .absent) = .ok [[1], [1]] ∧
    specNext (.node "r" [.leaf "x" "a", .leaf "y" "b"]) [[0], [1]]
        (getSelector (.node "r" [.leaf "x" "a", .leaf "y" "b"]) .absent) = [[1]] ∧
    prevM (.node "r" [.leaf "x" "a", .leaf "y" "b"]) [[1], [0]]
        (getSelector (.node "r" [.leaf "x" "a", .leaf "y" "b"]) .absent) = .ok [[0], [0]] ∧
    specPrev (.node "r" [.leaf "x" "a", .leaf "y" "b"]) [[1], [0]]
        (getSelector (.node "r" [.leaf "x" "a", .leaf "y" "b"]) .absent) = [[0]] := by
  decide

/-- C4, counterexample: passing a raw (unwrapped) node to the query function
raises the `Wrapper` constructor's invariant error
("Only Node instances can be passed in to a Wrapper") — it is not
auto-wrapped. -/
theorem claim_C4_counterexample :
    query ([] : Path) (some (.single (.raw (.leaf "a" "x")))) = .error .invariantError :=
  rfl

/-- C4 (amended): the query function returned by `createSession` accepts no
argument (returning the whole-tree root Selection), an overlay `Node`, or a
sequence of overlay `Node`s (returning a Selection scoped to exactly those
nodes); a raw (unwrapped) node — alone or inside a sequence — raises the
constructor's invariant error instead of being auto-wrapped. -/
theorem claim_C4_query_arguments {ν : Type _} (root n : ν) (ns : List ν) (r : RawNode)
    (xs : List (QueryItem ν)) :
    query root none = .ok [root] ∧
    query root (some (.single (.wrapped n))) = .ok [n] ∧
    query root (some (.seq (ns.map .wrapped))) = .ok ns ∧
    query root (some (.single (.raw r))) = .error .invariantError ∧
    query root (some (.seq (.raw r :: xs))) = .error .invariantError := by
  refine ⟨rfl, rfl, ?_, rfl, ?_⟩
  · simp only [query, queryArgTruthy, flattenArg, List.all_map, List.filterMap_map]
    have h1 : ∀ x : ν, QueryItem.isNode (QueryItem.wrapped x) = true := fun _ => rfl
    have h2 : List.filterMap
        ((fun x : QueryItem ν =>
          match x with
          | QueryItem.wrapped n => some n
          | _ => none) ∘ QueryItem.wrapped) ns = List.filterMap some ns := rfl
    simp [h1, h2]
  · simp [query, queryArgTruthy, flattenArg, QueryItem.isNode]

/-- C2: on the overlay of `{ type: 'a', value: [{ type: 'b', value: 'c' }] }`
(root id `0`), calling `remove`, `after` or `before` on a selection
containing the parentless root throws a `TypeError` (the code reads
`p.hasChildren` with `p === undefined`) instead of skipping the node
silently. -/
theorem claim_C2_root_mutation_throws :
    removeH (buildHeap (.node "a" [.leaf "b" "c"])) [0] = .error .typeError ∧
    afterH (buildHeap (.node "a" [.leaf "b" "c"])) (.raw (.leaf "z" "w")) [0] =
      .error .typeError ∧
    beforeH (buildHeap (.node "a" [.leaf "b" "c"])) (.raw (.leaf "z" "w")) [0] =
      .error .typeError := by
  decide

/-- C5, counterexample: on the overlay of `{ type: 'r', value: [a] }` (root
`0`, child `1`), `after` called with the already-wrapped child node itself —
a wrapped node, as the claim allows — completes and leaves the root's
children array as `[1, 1]`: a duplicated child reference, violating the
claimed invariant even though the overlay was consistent before the call. -/
theorem claim_C5_counterexample :
    afterH (buildHeap (.node "r" [.leaf "a" "x"])) (.wrapped 1) [1] =
      .ok [⟨.node "r" [.leaf "a" "x"], none, some [1, 1]⟩,
           ⟨.leaf "a" "x", some 0, none⟩] ∧
    ¬ heapChildrenConsistent
        [⟨.node "r" [.leaf "a" "x"], none, some [1, 1]⟩,
         ⟨.leaf "a" "x", some 0, none⟩] ∧
    heapWF (buildHeap (.node "r" [.leaf "a" "x"])) := by
  refine ⟨by decide, by decide, by decide⟩

/-- C5 (amended): after any single call to `after`, `before`, `remove` or
`replace` completes on a consistent overlay, where insertion arguments are
RAW (unwrapped) nodes and `replace`'s callback produces raw nodes, the
overlay's parent/children consistency holds: no children array holds a
dangling or duplicated child reference, and every node with a parent still
occurs (exactly once) in its parent's children array — except, for `remove`
and `replace`, the nodes of the selection themselves, which the call splices
out (they keep a stale parent pointer, per §3's "until explicitly removed").
Passing an already-wrapped node that is attached elsewhere in the tree can
duplicate a child reference (see the counterexample), which is what forces
the restriction to raw arguments. -/
theorem claim_C5_raw_mutations_consistent (h h' : Heap) (r : RawNode)
    (f : Nat → RawNode) (ids : List Nat) (hwf : heapWF h) :
    (afterH h (.raw r) ids = .ok h' → heapWF h') ∧
    (beforeH h (.raw r) ids = .ok h' → heapWF h') ∧
    (removeH h ids = .ok h' → heapChildrenConsistent h' ∧ heapFieldOK h' ∧
      ∀ c, c < h'.length → c ∉ ids → heapParentAttached h' c) ∧
    (replaceH h (fun m => .raw (f m)) ids = .ok h' → heapChildrenConsistent h' ∧
      heapFieldOK h' ∧ ∀ c, c < h'.length → c ∉ ids → heapParentAttached h' c) := by
  obtain ⟨hc, hf, hatt0⟩ := hwf
  have hcore : heapCore h := ⟨hc, hf⟩
  have hatt : attachedExcept h [] := fun c hcl _ => hatt0 c hcl
  refine ⟨?_, ?_, ?_, ?_⟩
  · intro hok
    unfold afterH at hok
    have hres := foldlM_steps (fun acc n => afterOne acc (.raw r) n) (fun _ b => b)
      (fun hc' ha' hs => afterOne_raw_step hc' ha' hs) ids hcore hatt hok
    rw [foldl_const] at hres
    exact ⟨hres.1.1, hres.1.2, fun c hcl => hres.2 c hcl (List.not_mem_nil c)⟩
  · intro hok
    unfold beforeH at hok
    have hres := foldlM_steps (fun acc n => beforeOne acc (.raw r) n) (fun _ b => b)
      (fun hc' ha' hs => beforeOne_raw_step hc' ha' hs) ids hcore hatt hok
    rw [foldl_const] at hres
    exact ⟨hres.1.1, hres.1.2, fun c hcl => hres.2 c hcl (List.not_mem_nil c)⟩
  · intro hok
    unfold removeH at hok
    have hres := foldlM_steps removeOne (fun n b => n :: b)
      (fun hc' ha' hs => removeOne_step hc' ha' hs) ids hcore hatt hok
    refine ⟨hres.1.1, hres.1.2, fun c hcl hcni => ?_⟩
    apply hres.2 c hcl
    intro hmem
    rcases (mem_foldl_cons ids [] c).mp hmem with hin | hin
    · exact hcni hin
    · exact List.not_mem_nil c hin
  · intro hok
    unfold replaceH at hok
    have hres := foldlM_steps (fun acc n => replaceOne acc (fun m => .raw (f m)) n)
      (fun n b => n :: b) (fun hc' ha' hs => replaceOne_raw_step hc' ha' hs)
      ids hcore hatt hok
    refine ⟨hres.1.1, hres.1.2, fun c hcl hcni => ?_⟩
    apply hres.2 c hcl
    intro hmem
    rcases (mem_foldl_cons ids [] c).mp hmem with hin | hin
    · exact hcni hin
    · exact List.not_mem_nil c hin

/-- C5 witness: a concrete consistent overlay, and the consistency of the
overlay produced by a concrete raw-node `after` call on it. -/
theorem claim_C5_raw_mutations_consistent_witness :
    heapWF (buildHeap (.node "a" [.leaf "b" "x", .leaf "c" "y"])) ∧
    heapWF [⟨.node "a" [.leaf "b" "x", .leaf "c" "y"], none, some [1, 3, 2]⟩,
            ⟨.leaf "b" "x", some 0, none⟩, ⟨.leaf "c" "y", some 0, none⟩,
            ⟨.leaf "z" "w", some 0, none⟩] :=
  ⟨by decide,
   (claim_C5_raw_mutations_consistent
      (buildHeap (.node "a" [.leaf "b" "x", .leaf "c" "y"]))
      [⟨.node "a" [.leaf "b" "x", .leaf "c" "y"], none, some [1, 3, 2]⟩,
       ⟨.leaf "b" "x", some 0, none⟩, ⟨.leaf "c" "y", some 0, none⟩,
       ⟨.leaf "z" "w", some 0, none⟩]
      (.leaf "z" "w") (fun _ => .leaf "q" "v") [1] (by decide)).1 (by decide)⟩

/-- C10: the query function treats every falsy argument — the number `0`,
the empty string, `false`, and `null` — exactly like an absent one: it
returns the whole-tree root Selection, not an empty Selection and not an
error. -/
theorem claim_C10_falsy_argument_is_root {ν : Type _} (root : ν) :
    query root (some (.single (.prim (.int 0)))) = .ok [root] ∧
    query root (some (.single (.prim (.str "")))) = .ok [root] ∧
    query root (some (.single (.prim (.bool false)))) = .ok [root] ∧
    query root (some (.single (.prim .null))) = .ok [root] ∧
    query root none = .ok [root] := by
  refine ⟨?_, ?_, ?_, ?_, rfl⟩ <;>
    simp [query, queryArgTruthy, JSArg.truthy]

end QueryAst
